import Mathlib

/-!
# Formal verification of the zeta-lab core algorithms

Shallow embedding, over exact real arithmetic, of the numerical core of the
zeta-lab repository:

* the chunk partitioner shared by the parallel paths
  (`js/math.js` `reimannSiegel` / `calculateSpiralParallel`),
* the spiral generator, serial (`js/math.js` `calculateSpiral`) and parallel
  (`js/math.js` `calculateSpiralParallel` plus the spiral worker),
* the Riemann-Siegel series evaluator (`reimannSiegel`),
* the adaptive downsampler, serial (`downsample.go`
  `downsampleComplexSerial`, identical to `js/math.js` `downsampleComplex`)
  and parallel (`downsample.go` `downsampleComplex`).

JavaScript / Go `float64` values are idealized as real numbers; machine
integers are `Nat` / `Int`.  Points and complex values are pairs `ℝ × ℝ`.
-/

/-! ## Chunk partitioner

`js/math.js`, `reimannSiegel` lines 176-191 and `calculateSpiralParallel`
lines 403-410: `chunkSize = Math.ceil(N / W)`, chunk `i` covers
`[i * chunkSize, min ((i + 1) * chunkSize) N)`. -/

/-- `Math.ceil(N / W)` for natural `N`, `W`. -/
def chunkSize (N W : ℕ) : ℕ := (N + W - 1) / W

/-- The half-open bounds `(startK, endK)` of chunk `i`:
`startK = i * chunkSize`, `endK = Math.min((i + 1) * chunkSize, N)`. -/
def chunkBounds (N W i : ℕ) : ℕ × ℕ :=
  (i * chunkSize N W, min ((i + 1) * chunkSize N W) N)

/-- The list of all `W` chunks, in worker order. -/
def chunks (N W : ℕ) : List (ℕ × ℕ) := (List.range W).map (chunkBounds N W)

/-- `chunkSize N W` agrees with Mathlib's ceiling division. -/
theorem chunkSize_eq_ceilDiv (N W : ℕ) : chunkSize N W = N ⌈/⌉ W := rfl

theorem chunkSize_pos (N W : ℕ) (hN : 1 ≤ N) (hW : 1 ≤ W) :
    1 ≤ chunkSize N W := by
  rw [chunkSize, Nat.le_div_iff_mul_le hW]
  omega

/-- `N ≤ W * chunkSize N W`: the `W` chunks suffice to cover the range. -/
theorem le_mul_chunkSize (N W : ℕ) (hW : 1 ≤ W) : N ≤ W * chunkSize N W := by
  have h := le_smul_ceilDiv (a := W) (b := N) (by omega)
  rw [chunkSize_eq_ceilDiv]
  simpa [smul_eq_mul] using h

/-- `chunkSize N W` is the *least* `c` with `N ≤ W * c`, i.e. `⌈N / W⌉`. -/
theorem chunkSize_min (N W : ℕ) (hW : 1 ≤ W) :
    ∀ c, N ≤ W * c → chunkSize N W ≤ c := by
  intro c hc
  rw [chunkSize_eq_ceilDiv]
  exact (ceilDiv_le_iff_le_mul (show 0 < W by omega)).2 hc

/-- C8: the chunk partitioning produces `W` chunks; chunk `i` is
`[i * chunkSize, min (i * chunkSize + chunkSize) N)` (size `ceil(N/W)`,
truncated at `N`, possibly empty); the chunks are pairwise disjoint and
their union covers exactly the index range `[0, N)`; and `chunkSize` is the
least `c` with `N ≤ W * c`, i.e. the ceiling of `N / W`. -/
theorem chunks_partition (N W : ℕ) (hW : 1 ≤ W) :
    (chunks N W).length = W
    ∧ (∀ i, chunkBounds N W i =
        (i * chunkSize N W, min (i * chunkSize N W + chunkSize N W) N))
    ∧ (∀ k, k < N ↔ ∃ i, i < W ∧ (chunkBounds N W i).1 ≤ k ∧ k < (chunkBounds N W i).2)
    ∧ (∀ i j, i ≠ j → ∀ k,
        ¬((chunkBounds N W i).1 ≤ k ∧ k < (chunkBounds N W i).2
          ∧ (chunkBounds N W j).1 ≤ k ∧ k < (chunkBounds N W j).2))
    ∧ (N ≤ W * chunkSize N W ∧ ∀ c, N ≤ W * c → chunkSize N W ≤ c) := by
  refine ⟨by simp [chunks], fun i => ?_, fun k => ?_, ?_, le_mul_chunkSize N W hW,
    chunkSize_min N W hW⟩
  · simp [chunkBounds, Nat.succ_mul]
  · constructor
    · intro hk
      set c := chunkSize N W with hc
      have hc1 : 1 ≤ c := chunkSize_pos N W (by omega) hW
      refine ⟨k / c, ?_, ?_, ?_⟩
      · have : k < W * c := lt_of_lt_of_le hk (le_mul_chunkSize N W hW)
        exact Nat.div_lt_iff_lt_mul (by omega) |>.2 this
      · simpa [chunkBounds] using Nat.div_mul_le_self k c
      · have h1 := Nat.div_add_mod k c
        have h2 := Nat.mod_lt k (show 0 < c by omega)
        simp only [chunkBounds, lt_min_iff]
        refine ⟨?_, hk⟩
        calc k = c * (k / c) + k % c := h1.symm
          _ < c * (k / c) + c := by omega
          _ = (k / c + 1) * c := by ring
    · rintro ⟨i, _, _, hk2⟩
      exact lt_of_lt_of_le hk2 (by simp [chunkBounds])
  · intro i j hij k ⟨hi1, hi2, hj1, hj2⟩
    rcases Nat.lt_or_ge i j with h | h
    · have : (i + 1) * chunkSize N W ≤ j * chunkSize N W :=
        Nat.mul_le_mul_right _ (by omega)
      simp only [chunkBounds, lt_min_iff] at hi2 hj1
      omega
    · have hji : j < i := by omega
      have : (j + 1) * chunkSize N W ≤ i * chunkSize N W :=
        Nat.mul_le_mul_right _ (by omega)
      simp only [chunkBounds, lt_min_iff] at hj2 hi1
      omega

/-- Witness for `chunks_partition` at `N = 5`, `W = 4` (chunk 3 is the empty
chunk `(6, 5)` with `start > end`). -/
theorem chunks_partition_witness :
    (1 ≤ 4 ∧ chunks 5 4 = [(0, 2), (2, 4), (4, 5), (6, 5)])
    ∧ ((chunks 5 4).length = 4
      ∧ (∀ i, chunkBounds 5 4 i =
          (i * chunkSize 5 4, min (i * chunkSize 5 4 + chunkSize 5 4) 5))
      ∧ (∀ k, k < 5 ↔ ∃ i, i < 4 ∧ (chunkBounds 5 4 i).1 ≤ k ∧ k < (chunkBounds 5 4 i).2)
      ∧ (∀ i j, i ≠ j → ∀ k,
          ¬((chunkBounds 5 4 i).1 ≤ k ∧ k < (chunkBounds 5 4 i).2
            ∧ (chunkBounds 5 4 j).1 ≤ k ∧ k < (chunkBounds 5 4 j).2))
      ∧ (5 ≤ 4 * chunkSize 5 4 ∧ ∀ c, 5 ≤ 4 * c → chunkSize 5 4 ≤ c)) :=
  ⟨⟨by decide, by decide⟩, chunks_partition 5 4 (by decide)⟩

/-! ## Spiral generator

Serial: `js/math.js` `calculateSpiral` lines 299-331.  Parallel:
`js/math.js` `calculateSpiralParallel` lines 396-446.  The worker script
`js/spiralWorker.js` referenced there is not among the sources; it is
modelled from the spec (§4.2 parallel mode). -/

/-- `ZetaMath.indexToImag` (`js/math.js` lines 127-135): the new quadratic
formula `2π(t² + t + 1/6)` or the old logarithmic-spacing formula. -/
noncomputable def indexToImag (index : ℝ) (useNew : Bool) : ℝ :=
  if useNew then 2 * Real.pi * (index * index + index + 1 / 6)
  else (index * 2 + 1) * Real.pi / (Real.log (index + 1) - Real.log index)

/-- `totalRange = Math.floor(imag / Math.PI + 1)`, as the iteration count of
the loop `for (i = 1; i <= totalRange; i++)`. -/
noncomputable def totalRange (imag : ℝ) : ℕ := (⌊imag / Real.pi + 1⌋).toNat

/-- The displacement of term `i`:
`angle = imag * ln i`, `magnitude = 1 / i^real`,
`(dx, dy) = (cos(angle) * magnitude, -sin(angle) * magnitude)`. -/
noncomputable def spiralDelta (σ imag : ℝ) (i : ℕ) : ℝ × ℝ :=
  (Real.cos (imag * Real.log i) * (1 / (i : ℝ) ^ σ),
   -Real.sin (imag * Real.log i) * (1 / (i : ℝ) ^ σ))

/-- The running-sum loop: starting from `start`, append `start + delta i`
for each index, the appended point becoming the new running sum. -/
noncomputable def runningSums (delta : ℕ → ℝ × ℝ) : List ℕ → ℝ × ℝ → List (ℝ × ℝ)
  | [], _ => []
  | i :: rest, start =>
      let p := start + delta i
      p :: runningSums delta rest p

/-- Total displacement of a chunk (the worker's `localSum`). -/
noncomputable def sumDelta (delta : ℕ → ℝ × ℝ) (l : List ℕ) : ℝ × ℝ :=
  (l.map delta).sum

/-- Serial `calculateSpiral` (`js/math.js` lines 299-331), restricted to its
point output: the origin followed by the cumulative sums of the
displacements for `i = 1 .. totalRange`. -/
noncomputable def calculateSpiral (σ index : ℝ) (useNew : Bool) : List (ℝ × ℝ) :=
  let imag := indexToImag index useNew
  (0, 0) :: runningSums (spiralDelta σ imag) (List.range' 1 (totalRange imag)) (0, 0)

/-- Modelled from the spec: `js/spiralWorker.js` is referenced by
`calculateSpiralParallel` but missing from the sources.  Per §4.2, a worker
receives a chunk of iteration indices and returns the chunk's local
prefix-sum sequence computed from a local zero origin (`prefix`) together
with the chunk's total displacement (`localSum`). -/
noncomputable def spiralWorker (σ imag : ℝ) (chunk : List ℕ) :
    List (ℝ × ℝ) × (ℝ × ℝ) :=
  (runningSums (spiralDelta σ imag) chunk (0, 0),
   sumDelta (spiralDelta σ imag) chunk)

/-- The offset pass of `calculateSpiralParallel` (`js/math.js` lines
433-446): each chunk's points are shifted by the running offset, which then
grows by the chunk's `localSum`. -/
noncomputable def mergeChunks : List (List (ℝ × ℝ) × (ℝ × ℝ)) → ℝ × ℝ → List (ℝ × ℝ)
  | [], _ => []
  | res :: rest, off =>
      res.1.map (fun p => p + off) ++ mergeChunks rest (off + res.2)

/-- `calculateSpiralParallel` (`js/math.js` lines 396-446), point output:
chunk the iteration values by `Math.ceil(len / numWorkers)`, run the worker
on each chunk, then prepend the origin and reassemble with the offset
pass. -/
noncomputable def calculateSpiralParallel (σ index : ℝ) (useNew : Bool) (W : ℕ) :
    List (ℝ × ℝ) :=
  let imag := indexToImag index useNew
  let iter := List.range' 1 (totalRange imag)
  let cs := chunkSize iter.length W
  let results := (List.range W).map (fun i => spiralWorker σ imag ((iter.drop (i * cs)).take cs))
  (0, 0) :: mergeChunks results (0, 0)

theorem runningSums_shift (delta : ℕ → ℝ × ℝ) :
    ∀ (l : List ℕ) (a s : ℝ × ℝ),
      runningSums delta l (a + s) = (runningSums delta l s).map (fun p => p + a)
  | [], _, _ => rfl
  | i :: rest, a, s => by
      simp only [runningSums]
      rw [show a + s + delta i = a + (s + delta i) by ring]
      rw [runningSums_shift delta rest a (s + delta i)]
      simp [add_comm]

theorem runningSums_append (delta : ℕ → ℝ × ℝ) :
    ∀ (l₁ l₂ : List ℕ) (s : ℝ × ℝ),
      runningSums delta (l₁ ++ l₂) s
        = runningSums delta l₁ s ++ runningSums delta l₂ (s + sumDelta delta l₁)
  | [], l₂, s => by simp [runningSums, sumDelta]
  | i :: rest, l₂, s => by
      simp only [List.cons_append, runningSums, sumDelta, List.map_cons, List.sum_cons,
        List.append_eq]
      rw [runningSums_append delta rest l₂ (s + delta i)]
      simp only [sumDelta]
      rw [show s + delta i + (rest.map delta).sum
            = s + (delta i + (rest.map delta).sum) by ring]

/-- The parallel-scan decomposition: chunk-local running sums from a zero
origin, merged with the exclusive prefix sum of chunk totals as offsets,
reproduce the serial running sums — for any chunk size covering the list. -/
theorem mergeChunks_eq (delta : ℕ → ℝ × ℝ) (cs : ℕ) :
    ∀ (W : ℕ) (l : List ℕ) (off : ℝ × ℝ), l.length ≤ W * cs →
      mergeChunks ((List.range W).map
          (fun i => (runningSums delta ((l.drop (i * cs)).take cs) (0, 0),
                     sumDelta delta ((l.drop (i * cs)).take cs)))) off
        = runningSums delta l off := by
  intro W
  induction W with
  | zero =>
      intro l off hl
      have : l = [] := List.length_eq_zero.1 (by omega)
      subst this
      simp [mergeChunks, runningSums]
  | succ W ih =>
      intro l off hl
      have hexp : Nat.succ W * cs = W * cs + cs := Nat.succ_mul W cs
      rw [hexp] at hl
      rw [List.range_succ_eq_map]
      simp only [List.map_cons, List.map_map, mergeChunks, Nat.zero_mul, List.drop_zero]
      have hcomp : ∀ i : ℕ, (l.drop (Nat.succ i * cs)).take cs
          = ((l.drop cs).drop (i * cs)).take cs := by
        intro i
        rw [List.drop_drop]
        congr 1
        rw [Nat.succ_mul, Nat.add_comm]
      have hmap : (List.range W).map
            (fun i => (runningSums delta ((l.drop (Nat.succ i * cs)).take cs) (0, 0),
                       sumDelta delta ((l.drop (Nat.succ i * cs)).take cs)))
          = (List.range W).map
            (fun i => (runningSums delta (((l.drop cs).drop (i * cs)).take cs) (0, 0),
                       sumDelta delta (((l.drop cs).drop (i * cs)).take cs))) := by
        apply List.map_congr_left
        intro i _
        rw [hcomp i]
      rw [show ((fun i => (runningSums delta ((l.drop (i * cs)).take cs) (0, 0),
                  sumDelta delta ((l.drop (i * cs)).take cs))) ∘ Nat.succ)
            = fun i => (runningSums delta ((l.drop (Nat.succ i * cs)).take cs) (0, 0),
                  sumDelta delta ((l.drop (Nat.succ i * cs)).take cs)) from rfl]
      rw [hmap]
      rw [ih (l.drop cs) (off + sumDelta delta (l.take cs))
        (by simp only [List.length_drop]; omega)]
      have hsplit := runningSums_append delta (l.take cs) (l.drop cs) off
      rw [List.take_append_drop] at hsplit
      rw [hsplit]
      congr 1
      have := runningSums_shift delta (l.take cs) off (0, 0)
      rw [show off + (0, 0) = off + 0 from rfl, add_zero] at this
      rw [this]

/-- The parallel and serial spiral generators produce identical point
lists (exact real arithmetic). -/
theorem calculateSpiralParallel_eq (σ index : ℝ) (useNew : Bool) (W : ℕ)
    (hW : 1 ≤ W) :
    calculateSpiralParallel σ index useNew W = calculateSpiral σ index useNew := by
  unfold calculateSpiralParallel calculateSpiral spiralWorker
  dsimp only
  congr 1
  apply mergeChunks_eq
  rw [List.length_range']
  simpa [mul_comm] using
    le_mul_chunkSize (totalRange (indexToImag index useNew)) W hW

theorem get_congr {α : Type} {xs ys : List α} (h : xs = ys) (i : ℕ)
    (h1 : i < xs.length) (h2 : i < ys.length) : xs.get ⟨i, h1⟩ = ys.get ⟨i, h2⟩ := by
  subst h
  rfl

/-- C1: for every real part `σ`, index, mapping formula and worker count
`W ≥ 1`, the parallel spiral generation (chunk-local prefix sums, exclusive
prefix-sum offset pass, origin prepended once) produces the same ordered
point sequence as the serial generation; in particular the two sequences
have the same length and agree pointwise within `1e-9` relative
tolerance. -/
theorem spiral_parallel_matches_serial (σ index : ℝ) (useNew : Bool) (W : ℕ)
    (hW : 1 ≤ W) :
    calculateSpiralParallel σ index useNew W = calculateSpiral σ index useNew
    ∧ (calculateSpiralParallel σ index useNew W).length
        = (calculateSpiral σ index useNew).length
    ∧ ∀ (i : ℕ) (h1 : i < (calculateSpiralParallel σ index useNew W).length)
        (h2 : i < (calculateSpiral σ index useNew).length),
        |((calculateSpiralParallel σ index useNew W).get ⟨i, h1⟩).1
            - ((calculateSpiral σ index useNew).get ⟨i, h2⟩).1|
          ≤ 1e-9 * |((calculateSpiral σ index useNew).get ⟨i, h2⟩).1|
        ∧ |((calculateSpiralParallel σ index useNew W).get ⟨i, h1⟩).2
            - ((calculateSpiral σ index useNew).get ⟨i, h2⟩).2|
          ≤ 1e-9 * |((calculateSpiral σ index useNew).get ⟨i, h2⟩).2| := by
  have h := calculateSpiralParallel_eq σ index useNew W hW
  refine ⟨h, by rw [h], fun i h1 h2 => ?_⟩
  rw [get_congr h i h1 h2]
  constructor <;> · rw [sub_self, abs_zero]; positivity

/-- Witness for `spiral_parallel_matches_serial` at
`σ = 0.5`, `index = 1`, new imaginary-part formula, `W = 2`. -/
theorem spiral_parallel_matches_serial_witness :
    (1 : ℕ) ≤ 2
    ∧ (calculateSpiralParallel 0.5 1 true 2 = calculateSpiral 0.5 1 true
      ∧ (calculateSpiralParallel 0.5 1 true 2).length
          = (calculateSpiral 0.5 1 true).length
      ∧ ∀ (i : ℕ) (h1 : i < (calculateSpiralParallel 0.5 1 true 2).length)
          (h2 : i < (calculateSpiral 0.5 1 true).length),
          |((calculateSpiralParallel 0.5 1 true 2).get ⟨i, h1⟩).1
              - ((calculateSpiral 0.5 1 true).get ⟨i, h2⟩).1|
            ≤ 1e-9 * |((calculateSpiral 0.5 1 true).get ⟨i, h2⟩).1|
          ∧ |((calculateSpiralParallel 0.5 1 true 2).get ⟨i, h1⟩).2
              - ((calculateSpiral 0.5 1 true).get ⟨i, h2⟩).2|
            ≤ 1e-9 * |((calculateSpiral 0.5 1 true).get ⟨i, h2⟩).2|) :=
  ⟨by decide, spiral_parallel_matches_serial 0.5 1 true 2 (by decide)⟩

/-! ## Riemann-Siegel series evaluator

Serial implementation from the unnamed source file (variant `math.js`),
`reimannSiegel` lines 177-220; the per-term formula also appears in
`js/riemann-worker.js` lines 39-44.  The real part of the input is carried
but, as in the source, unused. -/

/-- The asymptotic phase factor `V(t)` (`js/math.js` lines 145-160): main
term plus five polynomial-in-`1/t` correction terms. -/
noncomputable def phaseV (t : ℝ) : ℝ :=
  t / 2 * Real.log (t / (2 * Real.pi)) - t / 2 - Real.pi / 8
    + (1 / (48 * t) + 7 / (5760 * t ^ 3) + 31 / (80640 * t ^ 5)
      + 127 / (430080 * t ^ 7) + 511 / (1216512 * t ^ 9))

/-- The term count `v = Math.floor(Math.sqrt(t / (2π)))`. -/
noncomputable def vCount (t : ℝ) : ℕ := (⌊Real.sqrt (t / (2 * Real.pi))⌋).toNat

/-- `reimannSiegel` from the unnamed `math.js` variant, lines 177-220:
main sum over `k = 0 .. v-1` of `cos(V(t) - t ln(k+1)) / sqrt(k+1)`,
doubled; boundary correction with `T = sqrt(t/2π) - v`, alternating sign
`Math.pow(-1, v - 1)` (integer exponent, `-1` when `v = 0`); the scalar
`Z` is returned rotated by the phase `-V(t)`. -/
noncomputable def reimannSiegel (σ t : ℝ) : ℝ × ℝ :=
  let v := vCount t
  let sum := (2 : ℝ) * ∑ k ∈ Finset.range v,
    Real.cos (phaseV t - t * Real.log ((k : ℝ) + 1)) / Real.sqrt ((k : ℝ) + 1)
  let T := Real.sqrt (t / (2 * Real.pi)) - (v : ℝ)
  let phi := Real.cos (2 * Real.pi * (T * T - T - 1 / 16)) / Real.cos (2 * Real.pi * T)
  let b := (-1 : ℝ) ^ ((v : ℤ) - 1) * (2 * Real.pi / t) ^ (0.25 : ℝ) * phi
  let Z := sum + b
  (Z * Real.cos (-phaseV t), Z * Real.sin (-phaseV t))

/-- The series value as described by the spec (§4.3 and C3): term count
`v = ⌊√(τ/2π)⌋`, `Z = 2·Σ_{k=1..v} cos(V(τ) − τ ln k)/√k` plus the boundary
correction `(−1)^(v−1)·(2π/τ)^(1/4)·cos(2π(T²−T−1/16))/cos(2πT)` with
`T = √(τ/2π) − v`, returned as `(Z·cos(−V(τ)), Z·sin(−V(τ)))`. -/
noncomputable def reimannSiegelSpec (σ t : ℝ) : ℝ × ℝ :=
  let v := vCount t
  let Z := (2 : ℝ) * ∑ k ∈ Finset.Icc 1 v,
      Real.cos (phaseV t - t * Real.log (k : ℝ)) / Real.sqrt (k : ℝ)
    + (-1 : ℝ) ^ ((v : ℤ) - 1) * (2 * Real.pi / t) ^ ((1 : ℝ) / 4)
      * (Real.cos (2 * Real.pi
            * ((Real.sqrt (t / (2 * Real.pi)) - (v : ℝ)) ^ 2
              - (Real.sqrt (t / (2 * Real.pi)) - (v : ℝ)) - 1 / 16))
        / Real.cos (2 * Real.pi * (Real.sqrt (t / (2 * Real.pi)) - (v : ℝ))))
  (Z * Real.cos (-phaseV t), Z * Real.sin (-phaseV t))

/-- C3: for `τ > 0` the series evaluator computes exactly the value
described by the spec formula. -/
theorem reimannSiegel_eq_spec (σ t : ℝ) (ht : 0 < t) :
    reimannSiegel σ t = reimannSiegelSpec σ t := by
  unfold reimannSiegel reimannSiegelSpec
  dsimp only
  have hsum : ∑ k ∈ Finset.range (vCount t),
      Real.cos (phaseV t - t * Real.log ((k : ℝ) + 1)) / Real.sqrt ((k : ℝ) + 1)
      = ∑ k ∈ Finset.Icc 1 (vCount t),
        Real.cos (phaseV t - t * Real.log (k : ℝ)) / Real.sqrt (k : ℝ) := by
    rw [← Nat.Ico_succ_right, Finset.sum_Ico_eq_sum_range]
    simp only [Nat.succ_sub_one]
    apply Finset.sum_congr rfl
    intro k _
    have h1 : ((1 + k : ℕ) : ℝ) = (k : ℝ) + 1 := by push_cast; ring
    rw [h1]
  rw [hsum]
  have hexp : (0.25 : ℝ) = (1 : ℝ) / 4 := by norm_num
  rw [hexp]
  have hTT : (Real.sqrt (t / (2 * Real.pi)) - (vCount t : ℝ))
        * (Real.sqrt (t / (2 * Real.pi)) - (vCount t : ℝ))
      = (Real.sqrt (t / (2 * Real.pi)) - (vCount t : ℝ)) ^ 2 := by ring
  rw [hTT]

/-- Witness for `reimannSiegel_eq_spec` at `σ = 0.5`, `τ = 7`. -/
theorem reimannSiegel_eq_spec_witness :
    (0 : ℝ) < 7 ∧ reimannSiegel 0.5 7 = reimannSiegelSpec 0.5 7 :=
  ⟨by norm_num, reimannSiegel_eq_spec 0.5 7 (by norm_num)⟩

/-- The series evaluator with its error channel made explicit: the source
`reimannSiegel` (unnamed `math.js` variant lines 177-220, and the parallel
`js/math.js` lines 173-245) contains no guard, `throw`, or rejection branch
of any kind — it unconditionally computes and returns a value for every
input, so its faithful `Except` translation is always `Except.ok`. -/
noncomputable def reimannSiegelChecked (σ t : ℝ) : Except String (ℝ × ℝ) :=
  Except.ok (reimannSiegel σ t)

/-- C5 (code bug): contrary to the spec's required `τ ≤ 0` configuration
guard, the series evaluator never rejects a non-positive imaginary
coordinate: for every `τ ≤ 0` it silently returns a computed value (in
JavaScript, a `Complex` with NaN components). -/
theorem reimannSiegel_no_guard (σ t : ℝ) (ht : t ≤ 0) :
    ∃ p, reimannSiegelChecked σ t = Except.ok p :=
  ⟨reimannSiegel σ t, rfl⟩

/-- Witness for `reimannSiegel_no_guard` at `s = 0.5 - 1·i` (`τ = -1`). -/
theorem reimannSiegel_no_guard_witness :
    (-1 : ℝ) ≤ 0 ∧ ∃ p, reimannSiegelChecked 0.5 (-1) = Except.ok p :=
  ⟨by norm_num, reimannSiegel_no_guard 0.5 (-1) (by norm_num)⟩

/-! ## Adaptive downsampler

Serial algorithm: `downsample.go` `downsampleComplexSerial` lines 11-170
(line-for-line identical to `js/math.js` `ZetaMath.downsampleComplex` lines
468-618).  Parallel algorithm: `downsample.go` `downsampleComplex` lines
176-455.  Points are `ℝ × ℝ` pairs `(real, imag)`. -/

/-- `groupData`: running sum, member count, the group's anchor pixel
(set when the group starts, never updated), and the last member. -/
structure GroupData where
  sum : ℝ × ℝ
  count : ℕ
  pixelX : ℤ
  pixelY : ℤ
  lastLink : ℝ × ℝ

/-- `flushGroup`: a group flushes to the arithmetic mean of its members. -/
noncomputable def flushGroup (g : GroupData) : ℝ × ℝ :=
  (g.sum.1 / (g.count : ℝ), g.sum.2 / (g.count : ℝ))

/-- View bounds `((minX, maxX), (minY, maxY))` of a point list
(`downsample.go` lines 22-39). -/
noncomputable def boundsOf : List (ℝ × ℝ) → (ℝ × ℝ) × (ℝ × ℝ)
  | [] => ((0, 0), (0, 0))
  | p :: rest => rest.foldl
      (fun b q => ((min b.1.1 q.1, max b.1.2 q.1), (min b.2.1 q.2, max b.2.2 q.2)))
      ((p.1, p.1), (p.2, p.2))

/-- `maxRange = math.Max(maxX-minX, maxY-minY)` (`downsample.go` line 42). -/
noncomputable def maxRangeOf (links : List (ℝ × ℝ)) : ℝ :=
  max ((boundsOf links).1.2 - (boundsOf links).1.1)
    ((boundsOf links).2.2 - (boundsOf links).2.1)

/-- `relativeSpread = maxRange / math.Max(0.01, maxRange)`
(`downsample.go` lines 43-44). -/
noncomputable def relativeSpreadOf (links : List (ℝ × ℝ)) : ℝ :=
  maxRangeOf links / max 0.01 (maxRangeOf links)

/-- `maxRelativeSpread` as a function of aggressiveness
(`downsample.go` lines 47-56): base `0.0001`, scaled by `5^a` for `a > 0`,
overridden by the linear `0.03 … 0.05` blend for `a > 3.5`. -/
noncomputable def maxRelativeSpread (a : ℝ) : ℝ :=
  if a > 3.5 then 0.03 + 0.02 * ((a - 3.5) / 0.5)
  else if a > 0 then 0.0001 * (5 : ℝ) ^ a
  else 0.0001

/-- `pixelSpreadThreshold = 1.0 + a * 2.0` for `a > 0`
(`downsample.go` lines 59-62). -/
noncomputable def pixelSpreadThreshold (a : ℝ) : ℝ :=
  if a > 0 then 1.0 + a * 2.0 else 1.0

/-- `interpolationThreshold` (`downsample.go` lines 84-88): `1.1 * 2.5^a`,
overridden by the linear `55 … 75` blend for `a > 3.5`. -/
noncomputable def interpolationThreshold (a : ℝ) : ℝ :=
  if a > 3.5 then 55.0 + 20.0 * ((a - 3.5) / 0.5)
  else 1.1 * (2.5 : ℝ) ^ a

/-- Number of interpolation steps for a pixel gap
(`downsample.go` lines 139-143): `int(gap / 2^min(a, 3.5))`, reduced by up
to 50% for `a > 3.5`. -/
noncomputable def interpSteps (a gap : ℝ) : ℤ :=
  let s : ℤ := ⌊gap / (2 : ℝ) ^ (min a 3.5)⌋
  if a > 3.5 then ⌊(s : ℝ) * (1.0 - 0.5 * ((a - 3.5) / 0.5))⌋ else s

/-- The interpolation loop (`downsample.go` lines 145-149): for
`s = 1 .. steps`, `t = s / (steps + 1)`, emit `A*(1-t) + B*t`. -/
noncomputable def interpPoints (A B : ℝ × ℝ) (steps : ℤ) : List (ℝ × ℝ) :=
  (List.range steps.toNat).map fun (s : ℕ) =>
    let t := ((s : ℝ) + 1) / ((steps : ℝ) + 1)
    (A.1 * (1 - t) + B.1 * t, A.2 * (1 - t) + B.2 * t)

/-- `pixelForLink` (`downsample.go` lines 75-81): normalize against the
view bounds, scale to the output grid, round to integers. -/
noncomputable def pixelForLink (mnX mxX mnY mxY : ℝ) (outputSize : ℕ) (p : ℝ × ℝ) : ℤ × ℤ :=
  (round ((p.1 - mnX) / (mxX - mnX) * (outputSize : ℝ)),
   round ((p.2 - mnY) / (mxY - mnY) * (outputSize : ℝ)))

/-- Euclidean pixel-space gap `math.Sqrt(dx*dx + dy*dy)` from pixel `p` to
pixel `q`. -/
noncomputable def pixelGap (p q : ℤ × ℤ) : ℝ :=
  Real.sqrt (((q.1 - p.1) * (q.1 - p.1) + (q.2 - p.2) * (q.2 - p.2) : ℤ) : ℝ)

/-- Arithmetic mean of a point list (the whole-input fast path,
`downsample.go` lines 65-71). -/
noncomputable def meanOf (links : List (ℝ × ℝ)) : ℝ × ℝ :=
  ((links.map Prod.fst).sum / (links.length : ℝ),
   (links.map Prod.snd).sum / (links.length : ℝ))

/-- The grouping state machine (`downsample.go` lines 115-160): processes
the remaining links against the current group, emitting flushed means and
gap interpolants; returns the emitted points and the final (unflushed)
group. -/
noncomputable def dsCore (pix : ℝ × ℝ → ℤ × ℤ) (pst ith a : ℝ) :
    List (ℝ × ℝ) → GroupData → List (ℝ × ℝ) × GroupData
  | [], g => ([], g)
  | link :: rest, g =>
      let px := (pix link).1
      let py := (pix link).2
      if (px = g.pixelX ∧ py = g.pixelY)
          ∨ (|((px - g.pixelX : ℤ) : ℝ)| ≤ pst ∧ |((py - g.pixelY : ℤ) : ℝ)| ≤ pst) then
        dsCore pix pst ith a rest ⟨g.sum + link, g.count + 1, g.pixelX, g.pixelY, link⟩
      else
        let gap := pixelGap (g.pixelX, g.pixelY) (px, py)
        let res := dsCore pix pst ith a rest ⟨link, 1, px, py, link⟩
        (flushGroup g
            :: ((if gap > ith then interpPoints g.lastLink link (interpSteps a gap) else [])
              ++ res.1),
          res.2)

/-- `downsampleComplexSerial` (`downsample.go` lines 11-170): empty input
returned unchanged; whole-input collapse fast path; otherwise the grouping
state machine seeded with the first point, with the final group flushed
unconditionally. -/
noncomputable def downsampleComplexSerial (links : List (ℝ × ℝ)) (outputSize : ℕ)
    (a : ℝ) : List (ℝ × ℝ) :=
  match links with
  | [] => []
  | l0 :: rest =>
      if relativeSpreadOf (l0 :: rest) ≤ maxRelativeSpread a then
        [meanOf (l0 :: rest)]
      else
        let b := boundsOf (l0 :: rest)
        let pix := pixelForLink b.1.1 b.1.2 b.2.1 b.2.2 outputSize
        let res := dsCore pix (pixelSpreadThreshold a) (interpolationThreshold a) a rest
          ⟨l0, 1, (pix l0).1, (pix l0).2, l0⟩
        res.1 ++ [flushGroup res.2]

/-- C9: for every non-empty input the serial downsampler's output is
non-empty — the fast path returns a one-element list and the grouping path
flushes the current group unconditionally after the last input point. -/
theorem downsample_serial_nonempty (links : List (ℝ × ℝ)) (outputSize : ℕ) (a : ℝ)
    (h : links ≠ []) : downsampleComplexSerial links outputSize a ≠ [] := by
  match links with
  | [] => exact absurd rfl h
  | l0 :: rest =>
      rw [downsampleComplexSerial]
      split
      · simp
      · simp

/-- Witness for `downsample_serial_nonempty` on the single-point list
`[(1, 2)]` with grid size `10` and aggressiveness `0`. -/
theorem downsample_serial_nonempty_witness :
    ([((1 : ℝ), (2 : ℝ))] ≠ []) ∧ downsampleComplexSerial [((1 : ℝ), (2 : ℝ))] 10 0 ≠ [] :=
  ⟨by simp, downsample_serial_nonempty [((1 : ℝ), (2 : ℝ))] 10 0 (by simp)⟩

/-- C7: every interpolated point the downsampler inserts between the
flushed group's last member `A` and the new point `B` lies on the open
parametric segment: it equals `A + t(B-A)` with `t = s/(steps+1)` for some
`s ∈ {1, …, steps}`, and `0 < t < 1`. -/
theorem interpPoints_on_segment (A B : ℝ × ℝ) (steps : ℤ) (q : ℝ × ℝ)
    (hq : q ∈ interpPoints A B steps) :
    ∃ s : ℕ, 1 ≤ s ∧ (s : ℤ) ≤ steps ∧
      0 < (s : ℝ) / ((steps : ℝ) + 1) ∧ (s : ℝ) / ((steps : ℝ) + 1) < 1 ∧
      q = (A.1 + ((s : ℝ) / ((steps : ℝ) + 1)) * (B.1 - A.1),
           A.2 + ((s : ℝ) / ((steps : ℝ) + 1)) * (B.2 - A.2)) := by
  simp only [interpPoints, List.mem_map, List.mem_range] at hq
  obtain ⟨s', hs', hqeq⟩ := hq
  have hsteps : 1 ≤ steps := by omega
  have hden : (0 : ℝ) < (steps : ℝ) + 1 := by
    have : (1 : ℝ) ≤ (steps : ℝ) := by exact_mod_cast hsteps
    linarith
  refine ⟨s' + 1, by omega, by omega, ?_, ?_, ?_⟩
  · apply div_pos _ hden
    positivity
  · rw [div_lt_one hden]
    have : (s' : ℤ) + 1 ≤ steps := by omega
    have : ((s' : ℝ) + 1) ≤ (steps : ℝ) := by exact_mod_cast this
    push_cast
    linarith
  · rw [← hqeq]
    push_cast
    simp only [Prod.mk.injEq]
    constructor <;> ring

/-- Witness for `interpPoints_on_segment`: the single interpolant between
`(0,0)` and `(2,2)` with `steps = 1` is `(1,1)`, at `t = 1/2`. -/
theorem interpPoints_on_segment_witness :
    ((1 : ℝ), (1 : ℝ)) ∈ interpPoints (0, 0) (2, 2) 1
    ∧ ∃ s : ℕ, 1 ≤ s ∧ (s : ℤ) ≤ (1 : ℤ) ∧
        0 < (s : ℝ) / (((1 : ℤ) : ℝ) + 1) ∧ (s : ℝ) / (((1 : ℤ) : ℝ) + 1) < 1 ∧
        (((1 : ℝ), (1 : ℝ)) : ℝ × ℝ)
          = ((0 : ℝ) + ((s : ℝ) / (((1 : ℤ) : ℝ) + 1)) * ((2 : ℝ) - 0),
             (0 : ℝ) + ((s : ℝ) / (((1 : ℤ) : ℝ) + 1)) * ((2 : ℝ) - 0)) := by
  have hmem : ((1 : ℝ), (1 : ℝ)) ∈ interpPoints ((0 : ℝ), (0 : ℝ)) (2, 2) 1 := by
    rw [interpPoints]
    norm_num
  exact ⟨hmem, interpPoints_on_segment (0, 0) (2, 2) 1 (1, 1) hmem⟩

theorem boundsOf_const (p : ℝ × ℝ) :
    ∀ l : List (ℝ × ℝ), (∀ q ∈ l, q = p) →
      l.foldl
        (fun b q => ((min b.1.1 q.1, max b.1.2 q.1), (min b.2.1 q.2, max b.2.2 q.2)))
        ((p.1, p.1), (p.2, p.2)) = ((p.1, p.1), (p.2, p.2))
  | [], _ => rfl
  | q :: l, h => by
      have hq : q = p := h q (by simp)
      rw [List.foldl_cons, hq]
      simp only [min_self, max_self]
      exact boundsOf_const p l (fun r hr => h r (by simp [hr]))

theorem sum_fst_const (p : ℝ × ℝ) :
    ∀ l : List (ℝ × ℝ), (∀ q ∈ l, q = p) →
      (l.map Prod.fst).sum = (l.length : ℝ) * p.1 ∧
      (l.map Prod.snd).sum = (l.length : ℝ) * p.2
  | [], _ => by simp
  | q :: l, h => by
      have hq : q = p := h q (by simp)
      have ih := sum_fst_const p l (fun r hr => h r (by simp [hr]))
      simp only [List.map_cons, List.sum_cons, List.length_cons, hq, ih.1, ih.2]
      push_cast
      constructor <;> ring

theorem maxRelativeSpread_pos (a : ℝ) : 0 < maxRelativeSpread a := by
  rw [maxRelativeSpread]
  split
  · rename_i h
    have h2 : 0 < (a - 3.5) / 0.5 := div_pos (by linarith) (by norm_num)
    linarith
  · split
    · have := Real.rpow_pos_of_pos (show (0 : ℝ) < 5 by norm_num) a
      nlinarith
    · norm_num

/-- C6: on a non-empty input whose points all equal `p` (including the
single-point list `[p]`) the downsampler takes the whole-input collapse
fast path and returns exactly `[p]`. -/
theorem downsample_constant (links : List (ℝ × ℝ)) (p : ℝ × ℝ) (outputSize : ℕ) (a : ℝ)
    (h1 : links ≠ []) (h2 : ∀ q ∈ links, q = p) :
    downsampleComplexSerial links outputSize a = [p] := by
  match links with
  | [] => exact absurd rfl h1
  | l0 :: rest =>
      have hl0 : l0 = p := h2 l0 (by simp)
      have hb : boundsOf (l0 :: rest) = ((p.1, p.1), (p.2, p.2)) := by
        rw [boundsOf, hl0]
        exact boundsOf_const p rest (fun r hr => h2 r (by simp [hr]))
      have hrange : maxRangeOf (l0 :: rest) = 0 := by
        rw [maxRangeOf, hb]
        simp
      have hspread : relativeSpreadOf (l0 :: rest) = 0 := by
        rw [relativeSpreadOf, hrange]
        simp
      have hsum := sum_fst_const p (l0 :: rest) h2
      rw [downsampleComplexSerial]
      rw [if_pos (by rw [hspread]; exact (maxRelativeSpread_pos a).le)]
      have hlen : ((l0 :: rest).length : ℝ) ≠ 0 := by
        simp only [List.length_cons]
        push_cast
        positivity
      rw [meanOf, hsum.1, hsum.2]
      field_simp

/-- Witness for `downsample_constant` on `[(1, 2), (1, 2)]` with grid size
`10` and aggressiveness `0`. -/
theorem downsample_constant_witness :
    (([((1 : ℝ), (2 : ℝ)), (1, 2)] : List (ℝ × ℝ)) ≠ []
      ∧ ∀ q ∈ ([((1 : ℝ), (2 : ℝ)), (1, 2)] : List (ℝ × ℝ)), q = ((1 : ℝ), (2 : ℝ)))
    ∧ downsampleComplexSerial [((1 : ℝ), (2 : ℝ)), (1, 2)] 10 0 = [((1 : ℝ), (2 : ℝ))] := by
  have h2 : ∀ q ∈ ([((1 : ℝ), (2 : ℝ)), (1, 2)] : List (ℝ × ℝ)), q = ((1 : ℝ), (2 : ℝ)) := by
    intro q hq
    simp only [List.mem_cons, List.mem_singleton, List.not_mem_nil, or_false] at hq
    rcases hq with h | h <;> simp [h]
  exact ⟨⟨by simp, h2⟩, downsample_constant _ _ 10 0 (by simp) h2⟩

/-- `dsCore` with provenance tags: `true` marks a flushed group mean,
`false` marks a gap interpolant. -/
noncomputable def dsCoreT (pix : ℝ × ℝ → ℤ × ℤ) (pst ith a : ℝ) :
    List (ℝ × ℝ) → GroupData → List (Bool × (ℝ × ℝ)) × GroupData
  | [], g => ([], g)
  | link :: rest, g =>
      let px := (pix link).1
      let py := (pix link).2
      if (px = g.pixelX ∧ py = g.pixelY)
          ∨ (|((px - g.pixelX : ℤ) : ℝ)| ≤ pst ∧ |((py - g.pixelY : ℤ) : ℝ)| ≤ pst) then
        dsCoreT pix pst ith a rest ⟨g.sum + link, g.count + 1, g.pixelX, g.pixelY, link⟩
      else
        let gap := pixelGap (g.pixelX, g.pixelY) (px, py)
        let res := dsCoreT pix pst ith a rest ⟨link, 1, px, py, link⟩
        ((true, flushGroup g)
            :: ((if gap > ith then
                  (interpPoints g.lastLink link (interpSteps a gap)).map (fun q => (false, q))
                else []) ++ res.1),
          res.2)

/-- The serial downsampler with provenance tags. -/
noncomputable def downsampleComplexSerialT (links : List (ℝ × ℝ)) (outputSize : ℕ)
    (a : ℝ) : List (Bool × (ℝ × ℝ)) :=
  match links with
  | [] => []
  | l0 :: rest =>
      if relativeSpreadOf (l0 :: rest) ≤ maxRelativeSpread a then
        [(true, meanOf (l0 :: rest))]
      else
        let b := boundsOf (l0 :: rest)
        let pix := pixelForLink b.1.1 b.1.2 b.2.1 b.2.2 outputSize
        let res := dsCoreT pix (pixelSpreadThreshold a) (interpolationThreshold a) a rest
          ⟨l0, 1, (pix l0).1, (pix l0).2, l0⟩
        res.1 ++ [(true, flushGroup res.2)]

/-- Erasing the tags recovers `dsCore` exactly. -/
theorem dsCoreT_erase (pix : ℝ × ℝ → ℤ × ℤ) (pst ith a : ℝ) :
    ∀ (l : List (ℝ × ℝ)) (g : GroupData),
      (dsCoreT pix pst ith a l g).1.map Prod.snd = (dsCore pix pst ith a l g).1
      ∧ (dsCoreT pix pst ith a l g).2 = (dsCore pix pst ith a l g).2
  | [], g => by simp [dsCoreT, dsCore]
  | link :: rest, g => by
      rw [dsCoreT, dsCore]
      by_cases hc : (((pix link).1 = g.pixelX ∧ (pix link).2 = g.pixelY)
          ∨ (|(((pix link).1 - g.pixelX : ℤ) : ℝ)| ≤ pst
            ∧ |(((pix link).2 - g.pixelY : ℤ) : ℝ)| ≤ pst))
      · simp only [if_pos hc]
        exact dsCoreT_erase pix pst ith a rest _
      · simp only [if_neg hc]
        have ih := dsCoreT_erase pix pst ith a rest
          ⟨link, 1, (pix link).1, (pix link).2, link⟩
        refine ⟨?_, ih.2⟩
        simp only [List.map_cons, List.map_append, ih.1]
        congr 2
        split
        · simp [List.map_map, Function.comp]
        · simp

/-- Each tagged group mean consumes at least one input point: at most
`l.length` of the points emitted by `dsCoreT` are tagged as means. -/
theorem dsCoreT_true_count (pix : ℝ × ℝ → ℤ × ℤ) (pst ith a : ℝ) :
    ∀ (l : List (ℝ × ℝ)) (g : GroupData),
      ((dsCoreT pix pst ith a l g).1.filter (fun q => q.1)).length ≤ l.length
  | [], g => by simp [dsCoreT]
  | link :: rest, g => by
      rw [dsCoreT]
      by_cases hc : (((pix link).1 = g.pixelX ∧ (pix link).2 = g.pixelY)
          ∨ (|(((pix link).1 - g.pixelX : ℤ) : ℝ)| ≤ pst
            ∧ |(((pix link).2 - g.pixelY : ℤ) : ℝ)| ≤ pst))
      · simp only [if_pos hc]
        exact le_trans (dsCoreT_true_count pix pst ith a rest _) (by simp)
      · simp only [if_neg hc]
        have ih := dsCoreT_true_count pix pst ith a rest
          ⟨link, 1, (pix link).1, (pix link).2, link⟩
        simp only [List.filter_cons, List.filter_append, List.length_append]
        have hinterp : ∀ (ps : List (ℝ × ℝ)),
            (ps.map (fun q => (false, q))).filter (fun q : Bool × (ℝ × ℝ) => q.1) = [] := by
          intro ps
          simp [List.filter_map]
        split
        · rename_i hg
          simp only [List.length_cons]
          split
          · rw [hinterp]
            simpa using ih
          · simpa using ih
        · simp at *

/-- C2 (amended): the tagged output erases to the downsampler's output, and
at most `links.length` of the output points are group means — the total
output length can exceed the input length when gap interpolants are
inserted. -/
theorem downsample_mean_count_le (links : List (ℝ × ℝ)) (outputSize : ℕ) (a : ℝ)
    (h : links ≠ []) :
    (downsampleComplexSerialT links outputSize a).map Prod.snd
        = downsampleComplexSerial links outputSize a
    ∧ ((downsampleComplexSerialT links outputSize a).filter (fun q => q.1)).length
        ≤ links.length := by
  match links with
  | [] => exact absurd rfl h
  | l0 :: rest =>
      rw [downsampleComplexSerial, downsampleComplexSerialT]
      by_cases hc : relativeSpreadOf (l0 :: rest) ≤ maxRelativeSpread a
      · simp [if_pos hc]
      · simp only [if_neg hc]
        set pix := pixelForLink (boundsOf (l0 :: rest)).1.1 (boundsOf (l0 :: rest)).1.2
          (boundsOf (l0 :: rest)).2.1 (boundsOf (l0 :: rest)).2.2 outputSize with hpix
        have he := dsCoreT_erase pix (pixelSpreadThreshold a) (interpolationThreshold a) a
          rest ⟨l0, 1, (pix l0).1, (pix l0).2, l0⟩
        have hcnt := dsCoreT_true_count pix (pixelSpreadThreshold a)
          (interpolationThreshold a) a rest ⟨l0, 1, (pix l0).1, (pix l0).2, l0⟩
        constructor
        · simp only [List.map_append, he.1, he.2, List.map_cons, List.map_nil]
        · simp only [List.filter_append, List.length_append, List.length_cons]
          have h1 : (([(true, flushGroup (dsCoreT pix (pixelSpreadThreshold a)
              (interpolationThreshold a) a rest
              ⟨l0, 1, (pix l0).1, (pix l0).2, l0⟩).2)] : List (Bool × (ℝ × ℝ))).filter
                (fun q => q.1)).length = 1 := by simp
          rw [h1]
          omega

/-- Witness for `downsample_mean_count_le` on `[(0, 0), (1, 1)]` with grid
size `10` and aggressiveness `0`. -/
theorem downsample_mean_count_le_witness :
    (([((0 : ℝ), (0 : ℝ)), (1, 1)] : List (ℝ × ℝ)) ≠ [])
    ∧ ((downsampleComplexSerialT [((0 : ℝ), (0 : ℝ)), (1, 1)] 10 0).map Prod.snd
          = downsampleComplexSerial [((0 : ℝ), (0 : ℝ)), (1, 1)] 10 0
      ∧ ((downsampleComplexSerialT [((0 : ℝ), (0 : ℝ)), (1, 1)] 10 0).filter
            (fun q => q.1)).length ≤ ([((0 : ℝ), (0 : ℝ)), (1, 1)] : List (ℝ × ℝ)).length) :=
  ⟨by simp, downsample_mean_count_le [((0 : ℝ), (0 : ℝ)), (1, 1)] 10 0 (by simp)⟩

/-- C2 counterexample: on the two-point input `[(0,0), (1,1)]` with grid
size `10` and aggressiveness `0` the pixel gap is `√200 ≈ 14.1 > 1.1`, so
the downsampler inserts `⌊√200⌋ = 14` interpolants and returns `16 > 2`
points: the claimed bound `output length ≤ input length` is false. -/
theorem downsample_length_cex :
    ¬ ((downsampleComplexSerial [((0 : ℝ), (0 : ℝ)), (1, 1)] 10 0).length
        ≤ ([((0 : ℝ), (0 : ℝ)), (1, 1)] : List (ℝ × ℝ)).length) := by
  have hb : boundsOf [((0 : ℝ), (0 : ℝ)), (1, 1)] = ((0, 1), (0, 1)) := by
    rw [boundsOf]
    norm_num
  have hrs : relativeSpreadOf [((0 : ℝ), (0 : ℝ)), (1, 1)] = 1 := by
    rw [relativeSpreadOf, maxRangeOf, hb]
    norm_num
  have hmrs : maxRelativeSpread 0 = 0.0001 := by
    rw [maxRelativeSpread]
    norm_num
  have hpst : pixelSpreadThreshold 0 = 1 := by
    rw [pixelSpreadThreshold]
    norm_num
  have hith : interpolationThreshold 0 = 1.1 := by
    rw [interpolationThreshold]
    norm_num [Real.rpow_zero]
  have hpix0 : pixelForLink 0 1 0 1 10 ((0 : ℝ), (0 : ℝ)) = (0, 0) := by
    rw [pixelForLink]
    norm_num
  have hpix1 : pixelForLink 0 1 0 1 10 ((1 : ℝ), (1 : ℝ)) = (10, 10) := by
    rw [pixelForLink]
    norm_num [round_ofNat]
  have hgap : pixelGap (0, 0) (10, 10) = Real.sqrt 200 := by
    rw [pixelGap]
    norm_num
  have hsqrt_gt : (1.1 : ℝ) < Real.sqrt 200 := by
    rw [show (200 : ℝ) = 200 from rfl] at *
    exact Real.lt_sqrt_of_sq_lt (by norm_num)
  have hsteps : interpSteps 0 (Real.sqrt 200) = ⌊Real.sqrt 200⌋ := by
    rw [interpSteps]
    norm_num [Real.rpow_zero, min_def]
  have hfloor_ge : (1 : ℤ) ≤ ⌊Real.sqrt 200⌋ := by
    rw [Int.le_floor]
    have : (1 : ℝ) < 1.1 := by norm_num
    push_cast
    linarith
  rw [downsampleComplexSerial]
  rw [if_neg (by rw [hrs, hmrs]; norm_num)]
  dsimp only
  rw [hb]
  dsimp only
  rw [hpix0]
  dsimp only
  rw [dsCore]
  rw [hpix1]
  dsimp only
  rw [if_neg (by
    rw [hpst]
    push_cast
    norm_num)]
  rw [dsCore]
  dsimp only
  rw [hgap, hith]
  rw [if_pos hsqrt_gt]
  simp only [List.length_append, List.length_cons, List.length_nil, List.append_nil,
    interpPoints, List.length_map, List.length_range, hsteps]
  omega

theorem boundsOf_foldl_le :
    ∀ (l : List (ℝ × ℝ)) (b : (ℝ × ℝ) × (ℝ × ℝ)), b.1.1 ≤ b.1.2 → b.2.1 ≤ b.2.2 →
      ((l.foldl (fun b q =>
            ((min b.1.1 q.1, max b.1.2 q.1), (min b.2.1 q.2, max b.2.2 q.2))) b).1.1
          ≤ (l.foldl (fun b q =>
            ((min b.1.1 q.1, max b.1.2 q.1), (min b.2.1 q.2, max b.2.2 q.2))) b).1.2)
      ∧ ((l.foldl (fun b q =>
            ((min b.1.1 q.1, max b.1.2 q.1), (min b.2.1 q.2, max b.2.2 q.2))) b).2.1
          ≤ (l.foldl (fun b q =>
            ((min b.1.1 q.1, max b.1.2 q.1), (min b.2.1 q.2, max b.2.2 q.2))) b).2.2)
  | [], b, h1, h2 => ⟨h1, h2⟩
  | q :: l, b, h1, h2 => by
      rw [List.foldl_cons]
      exact boundsOf_foldl_le l _
        (le_trans (min_le_left _ _) (le_trans h1 (le_max_left _ _)))
        (le_trans (min_le_left _ _) (le_trans h2 (le_max_left _ _)))

/-- The bounding-box maximum range is nonnegative. -/
theorem maxRangeOf_nonneg (links : List (ℝ × ℝ)) : 0 ≤ maxRangeOf links := by
  match links with
  | [] => simp [maxRangeOf, boundsOf]
  | l0 :: rest =>
      have h := boundsOf_foldl_le rest ((l0.1, l0.1), (l0.2, l0.2)) le_rfl le_rfl
      rw [maxRangeOf, boundsOf]
      rw [le_max_iff]
      left
      linarith [h.1]

/-- `maxRelativeSpread` never exceeds `0.0625` for aggressiveness in
`[0, 4]`. -/
theorem maxRelativeSpread_le (a : ℝ) (ha4 : a ≤ 4) :
    maxRelativeSpread a ≤ 0.0625 := by
  rw [maxRelativeSpread]
  split
  · rename_i h
    have h2 : (a - 3.5) / 0.5 ≤ 1 := by
      rw [div_le_one (by norm_num)]
      linarith
    linarith
  · split
    · have h5 : (5 : ℝ) ^ a ≤ (5 : ℝ) ^ (4 : ℝ) :=
        (Real.rpow_le_rpow_left_iff (by norm_num)).2 ha4
      have h54 : (5 : ℝ) ^ (4 : ℝ) = 625 := by
        rw [show (4 : ℝ) = ((4 : ℕ) : ℝ) by norm_num, Real.rpow_natCast]
        norm_num
      nlinarith
    · norm_num

/-- C10 (amended): for aggressiveness in `[0, 4]` and non-empty input, the
whole-input collapse fast path fires iff the bounding-box maximum range is
*at most* (not strictly below) `0.01 * maxRelativeSpread`; when it fires
the whole input is averaged into one point; `maxRelativeSpread ≤ 0.0625`;
and the relative spread equals `1` whenever the range is at least
`0.01`. -/
theorem collapse_iff (links : List (ℝ × ℝ)) (outputSize : ℕ) (a : ℝ)
    (h : links ≠ []) (ha0 : 0 ≤ a) (ha4 : a ≤ 4) :
    (relativeSpreadOf links ≤ maxRelativeSpread a
        ↔ maxRangeOf links ≤ 0.01 * maxRelativeSpread a)
    ∧ (relativeSpreadOf links ≤ maxRelativeSpread a →
        downsampleComplexSerial links outputSize a = [meanOf links])
    ∧ maxRelativeSpread a ≤ 0.0625
    ∧ (0.01 ≤ maxRangeOf links → relativeSpreadOf links = 1) := by
  have hmle := maxRelativeSpread_le a ha4
  have hmpos := maxRelativeSpread_pos a
  have hr0 := maxRangeOf_nonneg links
  refine ⟨?_, ?_, hmle, ?_⟩
  · rw [relativeSpreadOf]
    rcases le_or_lt 0.01 (maxRangeOf links) with h1 | h1
    · rw [max_eq_right h1]
      rw [div_self (by linarith)]
      constructor
      · intro hle
        linarith
      · intro hle
        nlinarith
    · rw [max_eq_left h1.le]
      rw [div_le_iff (by norm_num)]
      rw [mul_comm]
  · intro hfire
    match links with
    | l0 :: rest =>
        rw [downsampleComplexSerial, if_pos hfire]
  · intro h1
    rw [relativeSpreadOf, max_eq_right h1, div_self (by linarith)]

/-- Witness for `collapse_iff` on `[(0, 0), (0.02, 0)]` with aggressiveness
`1`. -/
theorem collapse_iff_witness :
    (([((0 : ℝ), (0 : ℝ)), (0.02, 0)] : List (ℝ × ℝ)) ≠ [] ∧ (0 : ℝ) ≤ 1 ∧ (1 : ℝ) ≤ 4)
    ∧ ((relativeSpreadOf [((0 : ℝ), (0 : ℝ)), (0.02, 0)] ≤ maxRelativeSpread 1
          ↔ maxRangeOf [((0 : ℝ), (0 : ℝ)), (0.02, 0)] ≤ 0.01 * maxRelativeSpread 1)
      ∧ (relativeSpreadOf [((0 : ℝ), (0 : ℝ)), (0.02, 0)] ≤ maxRelativeSpread 1 →
          downsampleComplexSerial [((0 : ℝ), (0 : ℝ)), (0.02, 0)] 10 1
            = [meanOf [((0 : ℝ), (0 : ℝ)), (0.02, 0)]])
      ∧ maxRelativeSpread 1 ≤ 0.0625
      ∧ (0.01 ≤ maxRangeOf [((0 : ℝ), (0 : ℝ)), (0.02, 0)] →
          relativeSpreadOf [((0 : ℝ), (0 : ℝ)), (0.02, 0)] = 1)) :=
  ⟨⟨by simp, by norm_num, by norm_num⟩,
    collapse_iff [((0 : ℝ), (0 : ℝ)), (0.02, 0)] 10 1 (by simp) (by norm_num) (by norm_num)⟩

/-- C10 counterexample: at the boundary input `[(0,0), (0.000001, 0)]` with
aggressiveness `0` the range is exactly `0.01 * maxRelativeSpread`, the
fast path fires (the two points are averaged into one), yet the range is
*not* strictly below `0.01 * maxRelativeSpread` — refuting the claimed
strict-inequality characterization. -/
theorem collapse_boundary_cex :
    relativeSpreadOf [((0 : ℝ), (0 : ℝ)), (0.000001, 0)] ≤ maxRelativeSpread 0
    ∧ downsampleComplexSerial [((0 : ℝ), (0 : ℝ)), (0.000001, 0)] 10 0
        = [((0.0000005 : ℝ), (0 : ℝ))]
    ∧ ¬ (maxRangeOf [((0 : ℝ), (0 : ℝ)), (0.000001, 0)]
        < 0.01 * maxRelativeSpread 0) := by
  have hb : boundsOf [((0 : ℝ), (0 : ℝ)), (0.000001, 0)] = ((0, 0.000001), (0, 0)) := by
    rw [boundsOf]
    norm_num
  have hmr : maxRangeOf [((0 : ℝ), (0 : ℝ)), (0.000001, 0)] = 0.000001 := by
    rw [maxRangeOf, hb]
    norm_num
  have hrs : relativeSpreadOf [((0 : ℝ), (0 : ℝ)), (0.000001, 0)] = 0.0001 := by
    rw [relativeSpreadOf, hmr]
    norm_num
  have hmrs : maxRelativeSpread 0 = 0.0001 := by
    rw [maxRelativeSpread]
    norm_num
  refine ⟨by rw [hrs, hmrs], ?_, by rw [hmr, hmrs]; norm_num⟩
  rw [downsampleComplexSerial, if_pos (by rw [hrs, hmrs])]
  rw [meanOf]
  norm_num

/-! ## Parallel downsampler (`downsample.go` `downsampleComplex`,
lines 176-455)

The dispatcher delegates inputs shorter than 10000 points to the serial
algorithm; the definitions below model the parallel path itself,
parameterized by the worker count (`runtime.NumCPU()` in Go). -/

/-- `chunkResult` (without the ordering index, which the collection step
consumes): the chunk's emitted points, and the final group's last member
and anchor pixel.  An empty chunk yields the Go zero value. -/
structure ChunkResult where
  points : List (ℝ × ℝ)
  lastPoint : ℝ × ℝ
  lastPx : ℤ
  lastPy : ℤ

/-- The per-chunk worker (`downsample.go` lines 297-389): the serial
grouping state machine run on the chunk as if it were the whole input
(with the globally computed pixel mapping and thresholds), returning the
chunk's points and its final group's `lastLink` and anchor pixel. -/
noncomputable def dsWorker (pix : ℝ × ℝ → ℤ × ℤ) (pst ith a : ℝ)
    (chunk : List (ℝ × ℝ)) : ChunkResult :=
  match chunk with
  | [] => ⟨[], (0, 0), 0, 0⟩
  | c0 :: rest =>
      let res := dsCore pix pst ith a rest ⟨c0, 1, (pix c0).1, (pix c0).2, c0⟩
      ⟨res.1 ++ [flushGroup res.2], res.2.lastLink, res.2.pixelX, res.2.pixelY⟩

/-- The merge phase (`downsample.go` lines 417-449): walk the collected
results in chunk order, skipping empty chunks; between a non-empty chunk
and a non-empty *immediate successor*, insert interpolants when the gap
between the two chunks' last anchor pixels exceeds the interpolation
threshold, interpolating from the first chunk's last point to the
successor's first output point. -/
noncomputable def mergeResults (ith a : ℝ) : List ChunkResult → List (ℝ × ℝ)
  | [] => []
  | r :: rest =>
      if r.points = [] then mergeResults ith a rest
      else
        r.points
          ++ (match rest with
              | [] => []
              | r2 :: _ =>
                  if r2.points = [] then []
                  else
                    let gap := pixelGap (r.lastPx, r.lastPy) (r2.lastPx, r2.lastPy)
                    if gap > ith then
                      interpPoints r.lastPoint r2.points.headI (interpSteps a gap)
                    else [])
          ++ mergeResults ith a rest

/-- The parallel path of `downsampleComplex` (`downsample.go` lines
183-455): global bounds, fast path, chunking by
`(len + numWorkers - 1) / numWorkers`, per-chunk workers, ordered merge. -/
noncomputable def downsampleComplexParallel (links : List (ℝ × ℝ)) (outputSize : ℕ)
    (a : ℝ) (numWorkers : ℕ) : List (ℝ × ℝ) :=
  match links with
  | [] => []
  | l0 :: rest =>
      if relativeSpreadOf (l0 :: rest) ≤ maxRelativeSpread a then
        [meanOf (l0 :: rest)]
      else
        let b := boundsOf (l0 :: rest)
        let pix := pixelForLink b.1.1 b.1.2 b.2.1 b.2.2 outputSize
        let cs := chunkSize (l0 :: rest).length numWorkers
        mergeResults (interpolationThreshold a) a
          ((List.range numWorkers).map
            (fun w => dsWorker pix (pixelSpreadThreshold a) (interpolationThreshold a) a
              (((l0 :: rest).drop (w * cs)).take cs)))

/-- C4 (amended): in the merge phase, between a non-empty chunk result and
a non-empty immediately following chunk result, interpolants are inserted
exactly when the pixel gap between the two chunks' *last* recorded anchor
pixels exceeds the interpolation threshold, and they are the serial
algorithm's interpolants (`interpPoints`, via `interpSteps` on that gap)
from the first chunk's last recorded point to the successor's first output
point. -/
theorem mergeResults_adjacent (ith a : ℝ) (r0 r1 : ChunkResult)
    (rest : List ChunkResult) (h0 : r0.points ≠ []) (h1 : r1.points ≠ []) :
    mergeResults ith a (r0 :: r1 :: rest) =
      r0.points
        ++ (if pixelGap (r0.lastPx, r0.lastPy) (r1.lastPx, r1.lastPy) > ith then
              interpPoints r0.lastPoint r1.points.headI
                (interpSteps a (pixelGap (r0.lastPx, r0.lastPy) (r1.lastPx, r1.lastPy)))
            else [])
        ++ mergeResults ith a (r1 :: rest) := by
  rw [mergeResults]
  rw [if_neg h0]
  dsimp only
  rw [if_neg h1]

/-- Witness for `mergeResults_adjacent` on two concrete one-point chunk
results. -/
theorem mergeResults_adjacent_witness :
    ((⟨[((0 : ℝ), (0 : ℝ))], (0, 0), 0, 0⟩ : ChunkResult).points ≠ []
      ∧ (⟨[((1 : ℝ), (1 : ℝ))], (1, 1), 5, 5⟩ : ChunkResult).points ≠ [])
    ∧ mergeResults 1.1 0
        [⟨[((0 : ℝ), (0 : ℝ))], (0, 0), 0, 0⟩, ⟨[((1 : ℝ), (1 : ℝ))], (1, 1), 5, 5⟩] =
      (⟨[((0 : ℝ), (0 : ℝ))], (0, 0), 0, 0⟩ : ChunkResult).points
        ++ (if pixelGap ((0 : ℤ), (0 : ℤ)) ((5 : ℤ), (5 : ℤ)) > 1.1 then
              interpPoints (0, 0)
                ([((1 : ℝ), (1 : ℝ))]).headI
                (interpSteps 0 (pixelGap ((0 : ℤ), (0 : ℤ)) ((5 : ℤ), (5 : ℤ))))
            else [])
        ++ mergeResults 1.1 0 [⟨[((1 : ℝ), (1 : ℝ))], (1, 1), 5, 5⟩] :=
  ⟨⟨by simp, by simp⟩,
    mergeResults_adjacent 1.1 0 _ _ [] (by simp) (by simp)⟩

/-- C4 counterexample: on `[(0,0), (0,1), (1,1), (0.1,1)]` with grid size
`10`, aggressiveness `0` and two workers, chunk 0 = `[(0,0), (0,1)]` ends
with last recorded pixel `(0,10)` while chunk 1 = `[(1,1), (0.1,1)]` starts
at pixel `(10,10)` — a gap of `10`, far above the threshold `1.1` — yet the
merged output is exactly the concatenation of the two chunks' points with
*no* interpolants between them, because the code measures the gap to chunk
1's *last* recorded pixel `(1,10)` (distance `1 ≤ 1.1`), not to its first
recorded pixel as the claim states. -/
theorem downsample_parallel_merge_cex :
    (downsampleComplexParallel [((0 : ℝ), (0 : ℝ)), (0, 1), (1, 1), (0.1, 1)] 10 0 2
      = (dsWorker (pixelForLink 0 1 0 1 10) (pixelSpreadThreshold 0)
            (interpolationThreshold 0) 0 [((0 : ℝ), (0 : ℝ)), (0, 1)]).points
        ++ (dsWorker (pixelForLink 0 1 0 1 10) (pixelSpreadThreshold 0)
            (interpolationThreshold 0) 0 [((1 : ℝ), (1 : ℝ)), (0.1, 1)]).points)
    ∧ (dsWorker (pixelForLink 0 1 0 1 10) (pixelSpreadThreshold 0)
        (interpolationThreshold 0) 0 [((0 : ℝ), (0 : ℝ)), (0, 1)]).lastPx = 0
    ∧ (dsWorker (pixelForLink 0 1 0 1 10) (pixelSpreadThreshold 0)
        (interpolationThreshold 0) 0 [((0 : ℝ), (0 : ℝ)), (0, 1)]).lastPy = 10
    ∧ pixelForLink 0 1 0 1 10 ((1 : ℝ), (1 : ℝ)) = (10, 10)
    ∧ interpolationThreshold 0 < pixelGap ((0 : ℤ), (10 : ℤ)) ((10 : ℤ), (10 : ℤ)) := by
  have hpst : pixelSpreadThreshold 0 = 1 := by
    rw [pixelSpreadThreshold]; norm_num
  have hith : interpolationThreshold 0 = 1.1 := by
    rw [interpolationThreshold]; norm_num [Real.rpow_zero]
  have hpixA : pixelForLink 0 1 0 1 10 ((0 : ℝ), (0 : ℝ)) = (0, 0) := by
    rw [pixelForLink]; norm_num
  have hpixB : pixelForLink 0 1 0 1 10 ((0 : ℝ), (1 : ℝ)) = (0, 10) := by
    rw [pixelForLink]; norm_num [round_ofNat]
  have hpixC : pixelForLink 0 1 0 1 10 ((1 : ℝ), (1 : ℝ)) = (10, 10) := by
    rw [pixelForLink]; norm_num [round_ofNat]
  have hpixD : pixelForLink 0 1 0 1 10 ((0.1 : ℝ), (1 : ℝ)) = (1, 10) := by
    rw [pixelForLink]
    norm_num [round_ofNat, round_one]
  have hb : boundsOf [((0 : ℝ), (0 : ℝ)), (0, 1), (1, 1), (0.1, 1)] = ((0, 1), (0, 1)) := by
    rw [boundsOf]
    norm_num
  have hrs : relativeSpreadOf [((0 : ℝ), (0 : ℝ)), (0, 1), (1, 1), (0.1, 1)] = 1 := by
    rw [relativeSpreadOf, maxRangeOf, hb]
    norm_num
  have hmrs : maxRelativeSpread 0 = 0.0001 := by
    rw [maxRelativeSpread]; norm_num
  -- chunk 0's worker: last group is `{(0,1)}` anchored at pixel `(0,10)`
  have hw0 : (dsWorker (pixelForLink 0 1 0 1 10) (pixelSpreadThreshold 0)
      (interpolationThreshold 0) 0 [((0 : ℝ), (0 : ℝ)), (0, 1)]).lastPx = 0
      ∧ (dsWorker (pixelForLink 0 1 0 1 10) (pixelSpreadThreshold 0)
      (interpolationThreshold 0) 0 [((0 : ℝ), (0 : ℝ)), (0, 1)]).lastPy = 10 := by
    rw [dsWorker]
    dsimp only
    rw [dsCore]
    rw [hpixB, hpixA]
    dsimp only
    rw [if_neg (by
      rw [hpst]
      push_cast
      norm_num)]
    rw [dsCore]
    exact ⟨rfl, rfl⟩
  -- chunk 1's worker: last group is `{(0.1,1)}` anchored at pixel `(1,10)`
  have hw1 : (dsWorker (pixelForLink 0 1 0 1 10) (pixelSpreadThreshold 0)
      (interpolationThreshold 0) 0 [((1 : ℝ), (1 : ℝ)), (0.1, 1)]).lastPx = 1
      ∧ (dsWorker (pixelForLink 0 1 0 1 10) (pixelSpreadThreshold 0)
      (interpolationThreshold 0) 0 [((1 : ℝ), (1 : ℝ)), (0.1, 1)]).lastPy = 10 := by
    rw [dsWorker]
    dsimp only
    rw [dsCore]
    rw [hpixD, hpixC]
    dsimp only
    rw [if_neg (by
      rw [hpst]
      push_cast
      norm_num)]
    rw [dsCore]
    exact ⟨rfl, rfl⟩
  have hw0ne : (dsWorker (pixelForLink 0 1 0 1 10) (pixelSpreadThreshold 0)
      (interpolationThreshold 0) 0 [((0 : ℝ), (0 : ℝ)), (0, 1)]).points ≠ [] := by
    rw [dsWorker]
    simp
  have hw1ne : (dsWorker (pixelForLink 0 1 0 1 10) (pixelSpreadThreshold 0)
      (interpolationThreshold 0) 0 [((1 : ℝ), (1 : ℝ)), (0.1, 1)]).points ≠ [] := by
    rw [dsWorker]
    simp
  have hclaimgap : interpolationThreshold 0
      < pixelGap ((0 : ℤ), (10 : ℤ)) ((10 : ℤ), (10 : ℤ)) := by
    rw [hith, pixelGap]
    have h100 : Real.sqrt (((10 - 0) * (10 - 0) + (10 - 10) * (10 - 10) : ℤ) : ℝ)
        = 10 := by
      rw [show (((10 - 0) * (10 - 0) + (10 - 10) * (10 - 10) : ℤ) : ℝ) = 100 by norm_num]
      rw [show (100 : ℝ) = 10 ^ 2 by norm_num]
      exact Real.sqrt_sq (by norm_num)
    rw [h100]
    norm_num
  refine ⟨?_, hw0.1, hw0.2, hpixC, hclaimgap⟩
  rw [downsampleComplexParallel]
  rw [if_neg (by rw [hrs, hmrs]; norm_num)]
  dsimp only
  rw [hb]
  dsimp only
  have hcs : chunkSize ([((0 : ℝ), (0 : ℝ)), (0, 1), (1, 1), (0.1, 1)] : List (ℝ × ℝ)).length 2
      = 2 := by
    simp [chunkSize]
  rw [hcs]
  rw [show (List.range 2) = [0, 1] by rfl]
  simp only [List.map_cons, List.map_nil, Nat.zero_mul, Nat.one_mul, List.drop_zero,
    List.take_succ_cons, List.take_zero, List.drop_succ_cons, List.drop_nil]
  rw [mergeResults]
  rw [if_neg hw0ne]
  dsimp only
  rw [if_neg hw1ne]
  rw [hw0.1, hw0.2, hw1.1, hw1.2]
  have hmgap : pixelGap ((0 : ℤ), (10 : ℤ)) ((1 : ℤ), (10 : ℤ)) = 1 := by
    rw [pixelGap]
    rw [show (((1 - 0) * (1 - 0) + (10 - 10) * (10 - 10) : ℤ) : ℝ) = 1 by norm_num]
    exact Real.sqrt_one
  rw [hmgap]
  rw [if_neg (by rw [hith]; norm_num)]
  rw [mergeResults]
  rw [if_neg hw1ne]
  rw [mergeResults]
  simp
